import Mathlib

/-!
Shallow embedding of `src/git_lfs/pointer.py` (python-git-lfs).

Byte strings (python `bytes`) are modelled as `List Nat` of byte values.
Python exceptions are modelled by an error type returned through `Except`.
The file stream consumed by `Pointer.from_file` is modelled by the full byte
sequence it would yield, so `Pointer.from_file` here corresponds to
`Pointer.from_bytes` / `Pointer.from_file(BytesIO(b))` in the source.
-/

namespace GitLfs

abbrev Bytes := List Nat

/-- ASCII newline, the line terminator byte. -/
def NL : Nat := 10

/-- ASCII space, the key/value separator byte. -/
def SP : Nat := 32

/-- ASCII colon, the algorithm/digest separator byte. -/
def COLON : Nat := 58

/-- Byte values of an ASCII string literal. -/
def strBytes (s : String) : Bytes := s.toList.map Char.toNat

/-- Python `line.endswith(b'\x0a')`. -/
def endsWithNL (l : Bytes) : Bool := l.getLast? == some NL

/-- Python `b'\x20' in line`: some byte of the line is the space byte. -/
def containsSP (l : Bytes) : Bool := l.any (fun c => c == SP)

/-- Python `l.rstrip(b'\x0a')`: drop every trailing newline byte. -/
def rstripNL (l : Bytes) : Bytes := (l.reverse.dropWhile (fun c => c == NL)).reverse

/-- Python `l.split(sep, 1)`: split at the first occurrence of `sep`.
A result `(k, some v)` models the two-element list `[k, v]`; `(k, none)`
models the one-element list `[k]` (no separator present). -/
def split1 (sep : Nat) : Bytes → Bytes × Option Bytes
  | [] => ([], none)
  | c :: rest =>
    if c = sep then ([], some rest)
    else
      let (k, v) := split1 sep rest
      (c :: k, v)

/-- Python `f.readline(limit)` on a stream holding `b`: read at most `limit`
bytes, stopping after the first newline; returns the line and the rest. -/
def readline : Nat → Bytes → Bytes × Bytes
  | _, [] => ([], [])
  | 0, rest => ([], rest)
  | limit + 1, c :: rest =>
    if c = NL then ([NL], rest)
    else
      let (line, r) := readline limit rest
      (c :: line, r)

/-- Helper for `splitLines`; `acc` holds the current line, reversed. -/
def splitLinesAux : Bytes → Bytes → List Bytes
  | [], acc => if acc.isEmpty then [] else [acc.reverse]
  | c :: rest, acc =>
    if c = NL then (acc.reverse ++ [NL]) :: splitLinesAux rest []
    else splitLinesAux rest (c :: acc)

/-- Python `for line in f`: the remaining stream split into lines, each line
keeping its trailing newline; a final fragment without a newline is kept. -/
def splitLines (b : Bytes) : List Bytes := splitLinesAux b []

/-- Python `bytes.isdigit`: non-empty and every byte an ASCII decimal digit. -/
def bytesIsDigit (l : Bytes) : Bool := !l.isEmpty && l.all (fun c => 48 ≤ c && c ≤ 57)

/-- Python `int(l)` for a byte string of decimal digits. -/
def bytesToNat (l : Bytes) : Nat := l.foldl (fun a c => a * 10 + (c - 48)) 0

/-- Digit rendering helper: most significant digit first, with enough fuel. -/
def natToBytesAux : Nat → Nat → Bytes
  | 0, _ => []
  | fuel + 1, n => if n = 0 then [] else natToBytesAux fuel (n / 10) ++ [n % 10 + 48]

/-- Python `b'%d' % n` for a non-negative integer. -/
def natToBytes (n : Nat) : Bytes := if n = 0 then [48] else natToBytesAux n n

/-- Python `b'\x20'.join / b'\x0a'.join`: join byte strings with a separator. -/
def joinWith (sep : Bytes) : List Bytes → Bytes
  | [] => []
  | l :: ls => l ++ (ls.map (fun x => sep ++ x)).flatten

/-- The `Key` class constants of the source. -/
def Key.VERSION : Bytes := strBytes ("version")

def Key.OID : Bytes := strBytes ("oid")

def Key.SIZE : Bytes := strBytes ("size")

/-- The `Version` enumeration of recognized schema URIs. -/
inductive Version
  | V1
  | PRE
  | ALPHA
deriving DecidableEq

/-- The URI literal of each `Version` member. -/
def Version.value : Version → Bytes
  | .V1 => strBytes ("https://git-lfs.github.com/spec/v1")
  | .PRE => strBytes ("https://hawser.github.com/spec/v1")
  | .ALPHA => strBytes ("http://git-media.io/v/2")

/-- `Version.verify`: membership of the value among the enumerated URIs. -/
def Version.verify (line : Bytes) : Bool :=
  [Version.V1, Version.PRE, Version.ALPHA].any (fun v => line == v.value)

/-- The distinct python exception kinds the source can raise.
`malformedDigest` stands for the `ValueError` (or its subclass
`binascii.Error`) raised inside `SHA256.__init__`; `valueError` stands for
the `ValueError` raised by a failed two-element tuple unpacking;
`unicodeDecodeError` stands for the `UnicodeDecodeError` raised by
`hexdigest()` when the stored hex bytes are not ASCII. -/
inductive PyError
  | pointerFormat
  | versionUnsupported
  | keyError
  | valueError
  | malformedDigest
  | unicodeDecodeError
  | attributeError
deriving DecidableEq

/-- A hex digit byte: `0`-`9`, `a`-`f`, `A`-`F` (accepted by `binascii.unhexlify`). -/
def isHexDigit (c : Nat) : Bool :=
  (48 ≤ c && c ≤ 57) || (97 ≤ c && c ≤ 102) || (65 ≤ c && c ≤ 70)

/-- Numeric value of a hex digit byte. -/
def hexVal (c : Nat) : Nat :=
  if 48 ≤ c ∧ c ≤ 57 then c - 48
  else if 97 ≤ c ∧ c ≤ 102 then c - 87
  else c - 55

/-- Python `binascii.unhexlify` on an all-hex even-length input: consecutive
pairs of hex digits become single bytes. -/
def unhexlify : Bytes → Bytes
  | a :: b :: rest => (hexVal a * 16 + hexVal b) :: unhexlify rest
  | _ => []

/-- The `SHA256` value object: it stores the hex digest it was given. -/
structure SHA256 where
  hexsha : Bytes
deriving DecidableEq

/-- The algorithm name class attribute `digest_name` (ASCII of `sha256`). -/
def SHA256.digest_name : Bytes := strBytes ("sha256")

/-- `SHA256.__init__`: requires exactly 64 bytes (`256 / 4`), raising
`ValueError` otherwise, then `binascii.unhexlify` which raises
`binascii.Error` on a non-hex byte. Both are modelled as `malformedDigest`. -/
def SHA256.mk? (hexsha : Bytes) : Except PyError SHA256 :=
  if hexsha.length ≠ 64 then .error .malformedDigest
  else if !(hexsha.all isHexDigit) then .error .malformedDigest
  else .ok ⟨hexsha⟩

/-- `digest()`: the raw SHA digest (`_sha`, computed by unhexlify). -/
def SHA256.digest (s : SHA256) : Bytes := unhexlify s.hexsha

/-- `hexdigest()`: the stored hex digest text. -/
def SHA256.hexdigest (s : SHA256) : Bytes := s.hexsha

/-- Keys of `supported_digests = {b'sha256': SHA256}`. -/
def supported_digests : List Bytes := [SHA256.digest_name]

/-- A python `dict` with byte-string keys and values, as an association list
in insertion order. -/
abbrev Dict := List (Bytes × Bytes)

def dictHasKey (d : Dict) (k : Bytes) : Bool := d.any (fun p => p.1 == k)

/-- Python `d[k] = v`: update in place if the key exists, else append. -/
def dictSet (d : Dict) (k v : Bytes) : Dict :=
  if dictHasKey d k then d.map (fun p => if p.1 == k then (k, v) else p)
  else d ++ [(k, v)]

/-- Python `d[k]`, as an option (`none` models a raised `KeyError`). -/
def dictGet? (d : Dict) (k : Bytes) : Option Bytes :=
  (d.find? (fun p => p.1 == k)).map Prod.snd

/-- The `Pointer` object. `version` is a class attribute in the source
(constant `Version.V1`), modelled by `Pointer.version` below. -/
structure Pointer where
  _attrs : Dict
  oid : Option SHA256
  size : Nat
deriving DecidableEq

/-- `Pointer.__init__`: empty attributes, no oid, size 0. -/
def Pointer.init : Pointer := { _attrs := [], oid := none, size := 0 }

/-- The class attribute `version = Version.V1`. -/
def Pointer.version (_p : Pointer) : Version := Version.V1

/-- Result of `Pointer._verify_version`, which returns `True`, `False`, or
a `PointerFormatException` OBJECT (constructed but not raised). -/
inductive VerifyResult
  | vTrue
  | vFalse
  | vExc
deriving DecidableEq

/-- `Pointer._verify_version`. The `(_, none)` branch is unreachable when
the guard holds, because `rstripNL` removes only newline bytes, so the
space tested by `containsSP` survives into the split. -/
def Pointer._verify_version (line : Bytes) : VerifyResult :=
  if endsWithNL line && containsSP line then
    match split1 SP (rstripNL line) with
    | (key, some value) =>
      if key = Key.VERSION then
        if Version.verify value then .vTrue else .vFalse
      else .vExc
    | (_, none) => .vExc
  else .vExc

/-- The `for line in f` attribute loop of `from_file`: each line is stripped
of trailing newlines and unpacked as `key, value = line.split(b'\x20', 1)`;
a line with no space raises `ValueError` (tuple unpacking). -/
def parseAttrLines : List Bytes → Dict → Except PyError Dict
  | [], attrs => .ok attrs
  | line :: rest, attrs =>
    match split1 SP (rstripNL line) with
    | (_, none) => .error .valueError
    | (key, some value) => parseAttrLines rest (dictSet attrs key value)

/-- `Pointer.from_file` on a stream holding `b`. Note the source bug kept
faithfully here: `_verify_version` RETURNS a `PointerFormatException`
object for a malformed version line, and `if not self._verify_version(line)`
is falsy only for the boolean `False`, so only an unrecognized version
value raises (`VersionUnsupportedException`); a malformed first line is
silently skipped. -/
def Pointer.from_file (b : Bytes) : Except PyError Pointer :=
  let (line, rest) := readline 256 b
  if line = [] then .ok Pointer.init
  else if Pointer._verify_version line = .vFalse then .error .versionUnsupported
  else
    match parseAttrLines (splitLines rest) [] with
    | .error e => .error e
    | .ok attrs =>
      match dictGet? attrs Key.OID with
      | none => .error .keyError
      | some oidValue =>
        match split1 COLON oidValue with
        | (_, none) => .error .valueError
        | (oidType, some oidHash) =>
          if !(supported_digests.contains oidType) then .error .pointerFormat
          else
            match SHA256.mk? oidHash with
            | .error e => .error e
            | .ok oid =>
              match dictGet? attrs Key.SIZE with
              | none => .error .keyError
              | some sizeValue =>
                if !(bytesIsDigit sizeValue) then .error .pointerFormat
                else .ok { _attrs := attrs, oid := some oid, size := bytesToNat sizeValue }

/-- `Pointer.from_bytes`: wrap the buffer in a stream and delegate. -/
def Pointer.from_bytes (b : Bytes) : Except PyError Pointer := Pointer.from_file b

/-- Python `<` on byte strings (lexicographic on byte values). -/
def bytesLt : Bytes → Bytes → Bool
  | _, [] => false
  | [], _ :: _ => true
  | a :: as, b :: bs => if a < b then true else if b < a then false else bytesLt as bs

/-- Python `<` on `(key, value)` pairs: lexicographic tuple comparison. -/
def pairLt (p q : Bytes × Bytes) : Bool :=
  bytesLt p.1 q.1 || (p.1 == q.1 && bytesLt p.2 q.2)

/-- The ordering used for `sorted(self._attrs.items())`: ascending, meaning
not-greater-than under the tuple comparison. -/
def pairLe (p q : Bytes × Bytes) : Prop := pairLt q p = false

instance : DecidableRel pairLe := fun p q => inferInstanceAs (Decidable (pairLt q p = false))

/-- One `b'\x20'.join(kv)` line of `__bytes__` (without terminator). -/
def attrLine (kv : Bytes × Bytes) : Bytes := kv.1 ++ SP :: kv.2

/-- `Pointer.__bytes__`: overwrite the `size` and `oid` attributes from the
fields, prepend the canonical version line, sort the attributes, and join.
With no oid, `self.oid.digest_name` raises `AttributeError`; with non-ASCII
stored hex bytes, `hexdigest()` raises `UnicodeDecodeError`. -/
def Pointer.toBytes (p : Pointer) : Except PyError Bytes :=
  let attrs1 := dictSet p._attrs Key.SIZE (natToBytes p.size)
  match p.oid with
  | none => .error .attributeError
  | some oid =>
    if oid.hexsha.any (fun c => 128 ≤ c) then .error .unicodeDecodeError
    else
      let attrs2 := dictSet attrs1 Key.OID (SHA256.digest_name ++ COLON :: oid.hexsha)
      let items := (Key.VERSION, Version.V1.value) :: List.insertionSort pairLe attrs2
      .ok (joinWith [NL] (items.map attrLine) ++ [NL])

/-- Spec-side view of one serialized attribute line: key, one space, value,
terminating newline. -/
def lineOf (kv : Bytes × Bytes) : Bytes := kv.1 ++ SP :: (kv.2 ++ [NL])

/-- Spec-side view of a serialized attribute block. -/
def encodeLines (items : List (Bytes × Bytes)) : Bytes := (items.map lineOf).flatten

/-- Spec-side view of a whole canonical pointer file: the primary version
line followed by the given attribute lines. -/
def canonBytes (items : List (Bytes × Bytes)) : Bytes :=
  lineOf (Key.VERSION, Version.V1.value) ++ encodeLines items

instance instDecEqExcept {ε α : Type} [DecidableEq ε] [DecidableEq α] :
    DecidableEq (Except ε α) := fun x y =>
  match x, y with
  | .ok a, .ok b =>
    match decEq a b with
    | .isTrue h => .isTrue (congrArg Except.ok h)
    | .isFalse h => .isFalse (fun hh => h (by cases hh; rfl))
  | .ok _, .error _ => .isFalse (fun hh => Except.noConfusion hh)
  | .error _, .ok _ => .isFalse (fun hh => Except.noConfusion hh)
  | .error a, .error b =>
    match decEq a b with
    | .isTrue h => .isTrue (congrArg Except.error h)
    | .isFalse h => .isFalse (fun hh => h (by cases hh; rfl))

/-! Order properties of the byte-string and tuple comparisons. -/

theorem bytesLt_irrefl : ∀ a : Bytes, bytesLt a a = false
  | [] => rfl
  | a :: as => by
    simp only [bytesLt, lt_self_iff_false, if_false]
    exact bytesLt_irrefl as

theorem bytesLt_trichotomy : ∀ a b : Bytes, bytesLt a b = true ∨ a = b ∨ bytesLt b a = true
  | [], [] => .inr (.inl rfl)
  | [], _ :: _ => .inl (by simp [bytesLt])
  | _ :: _, [] => .inr (.inr (by simp [bytesLt]))
  | a :: as, b :: bs => by
    rcases Nat.lt_trichotomy a b with h | h | h
    · exact .inl (by simp [bytesLt, h])
    · subst h
      rcases bytesLt_trichotomy as bs with h2 | h2 | h2
      · exact .inl (by simp [bytesLt, h2])
      · exact .inr (.inl (by rw [h2]))
      · exact .inr (.inr (by simp [bytesLt, h2]))
    · exact .inr (.inr (by simp [bytesLt, h]))

theorem bytesLt_asymm : ∀ a b : Bytes, bytesLt a b = true → bytesLt b a = false
  | _, [], h => by simp [bytesLt] at h
  | [], _ :: _, _ => by simp [bytesLt]
  | a :: as, b :: bs, h => by
    simp only [bytesLt] at h ⊢
    rcases Nat.lt_trichotomy a b with h1 | h1 | h1
    · simp [Nat.lt_asymm h1, h1]
    · subst h1
      simp only [lt_self_iff_false, if_false] at h ⊢
      exact bytesLt_asymm as bs h
    · simp [h1, Nat.lt_asymm h1] at h

theorem bytesLt_trans : ∀ a b c : Bytes,
    bytesLt a b = true → bytesLt b c = true → bytesLt a c = true
  | _, _, [], _, h2 => by simp [bytesLt] at h2
  | _, [], _ :: _, h1, _ => by simp [bytesLt] at h1
  | [], _ :: _, _ :: _, _, _ => by simp [bytesLt]
  | a :: as, b :: bs, c :: cs, h1, h2 => by
    simp only [bytesLt] at h1 h2 ⊢
    split at h1
    next hab =>
      split at h2
      next hbc => simp [Nat.lt_trans hab hbc]
      next hbc =>
        split at h2
        next hcb => simp at h2
        next hcb =>
          have hbc' : b = c := by omega
          subst hbc'
          simp [hab]
    next hab =>
      split at h1
      next hba => simp at h1
      next hba =>
        have hab' : a = b := by omega
        subst hab'
        split at h2
        next hbc => simp [hbc]
        next hbc =>
          split at h2
          next hcb => simp at h2
          next hcb =>
            have hac : a = c := by omega
            subst hac
            simp only [lt_self_iff_false, if_false]
            exact bytesLt_trans as bs cs h1 h2

theorem pairLt_asymm (p q : Bytes × Bytes) (h : pairLt p q = true) : pairLt q p = false := by
  simp only [pairLt, Bool.or_eq_true, Bool.and_eq_true, beq_iff_eq] at h
  simp only [pairLt, Bool.or_eq_false_iff, Bool.and_eq_false_iff, beq_eq_false_iff_ne, ne_eq]
  rcases h with h | ⟨he, h⟩
  · constructor
    · exact bytesLt_asymm _ _ h
    · left
      intro he
      rw [he] at h
      rw [bytesLt_irrefl] at h
      exact Bool.false_ne_true h
  · rw [he]
    constructor
    · exact bytesLt_irrefl _
    · right
      exact bytesLt_asymm _ _ h

theorem pairLt_trichotomy (p q : Bytes × Bytes) :
    pairLt p q = true ∨ p = q ∨ pairLt q p = true := by
  rcases bytesLt_trichotomy p.1 q.1 with h | h | h
  · exact .inl (by simp [pairLt, h])
  · rcases bytesLt_trichotomy p.2 q.2 with h2 | h2 | h2
    · exact .inl (by simp [pairLt, h, h2])
    · exact .inr (.inl (Prod.ext h h2))
    · exact .inr (.inr (by simp [pairLt, h.symm, h2]))
  · exact .inr (.inr (by simp [pairLt, h]))

theorem pairLt_trans (p q r : Bytes × Bytes)
    (h1 : pairLt p q = true) (h2 : pairLt q r = true) : pairLt p r = true := by
  simp only [pairLt, Bool.or_eq_true, Bool.and_eq_true, beq_iff_eq] at h1 h2 ⊢
  rcases h1 with h1 | ⟨he1, h1⟩
  · rcases h2 with h2 | ⟨he2, h2⟩
    · exact .inl (bytesLt_trans _ _ _ h1 h2)
    · exact .inl (he2 ▸ h1)
  · rcases h2 with h2 | ⟨he2, h2⟩
    · exact .inl (he1 ▸ h2)
    · exact .inr ⟨he1.trans he2, bytesLt_trans _ _ _ h1 h2⟩

instance : IsTotal (Bytes × Bytes) pairLe :=
  ⟨fun p q => by
    unfold pairLe
    rcases Bool.eq_false_or_eq_true (pairLt q p) with h | h
    · exact .inr (pairLt_asymm q p h)
    · exact .inl h⟩

instance : IsTrans (Bytes × Bytes) pairLe :=
  ⟨fun p q r hpq hqr => by
    unfold pairLe at *
    cases hrp : pairLt r p with
    | false => rfl
    | true =>
      exfalso
      rcases pairLt_trichotomy r q with h1 | h1 | h1
      · rw [hqr] at h1
        exact Bool.false_ne_true h1
      · rw [h1] at hrp
        rw [hpq] at hrp
        exact Bool.false_ne_true hrp
      · have := pairLt_trans q r p h1 hrp
        rw [hpq] at this
        exact Bool.false_ne_true this⟩

/-! Facts about decimal rendering and reading of sizes. -/

theorem foldr_eq_ofDigits : ∀ L : List Nat,
    L.foldr (fun d a => a * 10 + d) 0 = Nat.ofDigits 10 L
  | [] => rfl
  | d :: L => by
    simp only [List.foldr_cons, foldr_eq_ofDigits L, Nat.ofDigits_cons]
    ring

theorem natToBytesAux_eq : ∀ fuel n : Nat, n ≤ fuel →
    natToBytesAux fuel n = (Nat.digits 10 n).reverse.map (fun d => d + 48) := by
  intro fuel
  induction fuel with
  | zero =>
    intro n hn
    have h0 : n = 0 := by omega
    subst h0
    simp [natToBytesAux]
  | succ fuel ih =>
    intro n hn
    by_cases h0 : n = 0
    · subst h0
      simp [natToBytesAux]
    · rw [natToBytesAux, if_neg h0]
      rw [Nat.digits_def' (by norm_num : (1:ℕ) < 10) (Nat.pos_of_ne_zero h0)]
      rw [ih (n / 10) ?_]
      · simp
      · have := Nat.div_lt_self (Nat.pos_of_ne_zero h0) (by norm_num : (1:ℕ) < 10)
        omega

/-- The rendered digits are exactly the reversed base-10 digit list. -/
theorem natToBytes_eq (n : Nat) :
    natToBytes n =
      if n = 0 then [48] else (Nat.digits 10 n).reverse.map (fun d => d + 48) := by
  unfold natToBytes
  split
  · rfl
  · exact natToBytesAux_eq n n le_rfl

theorem bytesToNat_natToBytes (n : Nat) : bytesToNat (natToBytes n) = n := by
  rw [natToBytes_eq]
  split
  next h => subst h; rfl
  next h =>
    unfold bytesToNat
    rw [List.map_reverse, List.foldl_reverse, List.foldr_map]
    simp only [Nat.add_sub_cancel]
    rw [foldr_eq_ofDigits, Nat.ofDigits_digits]

theorem natToBytes_mem_digit {n c : Nat} (h : c ∈ natToBytes n) : 48 ≤ c ∧ c ≤ 57 := by
  rw [natToBytes_eq] at h
  split at h
  · simp only [List.mem_singleton] at h
    omega
  · simp only [List.map_reverse, List.mem_reverse, List.mem_map] at h
    obtain ⟨d, hd, rfl⟩ := h
    have := Nat.digits_lt_base (by norm_num) hd
    omega

theorem natToBytes_ne_nil (n : Nat) : natToBytes n ≠ [] := by
  rw [natToBytes_eq]
  split
  · simp
  next h =>
    simp only [ne_eq, List.reverse_eq_nil_iff, List.map_eq_nil_iff]
    exact Nat.digits_ne_nil_iff_ne_zero.mpr h

theorem bytesIsDigit_natToBytes (n : Nat) : bytesIsDigit (natToBytes n) = true := by
  unfold bytesIsDigit
  rw [Bool.and_eq_true]
  constructor
  · cases hn : natToBytes n with
    | nil => exact absurd hn (natToBytes_ne_nil n)
    | cons c l => simp
  · rw [List.all_eq_true]
    intro c hc
    have := natToBytes_mem_digit hc
    simp only [Bool.and_eq_true, decide_eq_true_eq]
    omega

theorem natToBytes_no_NL (n : Nat) : NL ∉ natToBytes n := by
  intro h
  have := natToBytes_mem_digit h
  unfold NL at this
  omega

theorem isHexDigit_facts {c : Nat} (h : isHexDigit c = true) : c ≠ NL ∧ c < 128 := by
  simp only [isHexDigit, Bool.or_eq_true, Bool.and_eq_true, decide_eq_true_eq] at h
  unfold NL
  omega

/-! Facts about newline stripping, splitting and line reading. -/

theorem rstripNL_of_no_NL {l : Bytes} (h : NL ∉ l) : rstripNL l = l := by
  unfold rstripNL
  cases hrev : l.reverse with
  | nil =>
    have : l = [] := by simpa using congrArg List.reverse hrev
    simp [this]
  | cons c r =>
    have hc : c ∈ l := by
      have : c ∈ l.reverse := by
        rw [hrev]
        exact List.mem_cons_self _ _
      simpa using this
    have hne : (c == NL) = false := by
      simp only [beq_eq_false_iff_ne, ne_eq]
      intro he
      exact h (he ▸ hc)
    rw [List.dropWhile_cons, if_neg (by simp [hne]), ← hrev, List.reverse_reverse]

theorem rstripNL_append_NL (l : Bytes) : rstripNL (l ++ [NL]) = rstripNL l := by
  unfold rstripNL
  rw [List.reverse_append]
  simp [List.dropWhile_cons]

theorem split1_append (sep : Nat) (k v : Bytes) (h : sep ∉ k) :
    split1 sep (k ++ sep :: v) = (k, some v) := by
  induction k with
  | nil => simp [split1]
  | cons c k ih =>
    have hc : ¬(c = sep) := by
      intro he
      exact h (by simp [he])
    have hk : sep ∉ k := fun hm => h (List.mem_cons_of_mem _ hm)
    simp [split1, hc, ih hk]

theorem split1_some_eq {sep : Nat} :
    ∀ {s k v : Bytes}, split1 sep s = (k, some v) → s = k ++ sep :: v ∧ sep ∉ k := by
  intro s
  induction s with
  | nil => intro k v h; simp [split1] at h
  | cons c rest ih =>
    intro k v h
    by_cases hc : c = sep
    · simp only [split1, if_pos hc, Prod.mk.injEq, Option.some.injEq] at h
      obtain ⟨hk, hv⟩ := h
      subst hk
      subst hv
      subst hc
      exact ⟨rfl, by simp⟩
    · cases hrest : split1 sep rest with
    | mk k1 v1 =>
      simp only [split1, if_neg hc, hrest, Prod.mk.injEq] at h
      obtain ⟨hk, hv⟩ := h
      subst hv
      obtain ⟨he, hm⟩ := ih hrest
      subst he
      subst hk
      constructor
      · simp
      · intro hmem
        rcases List.mem_cons.mp hmem with h1 | h1
        · exact hc h1.symm
        · exact hm h1

theorem split1_none_eq {sep : Nat} :
    ∀ {s k : Bytes}, split1 sep s = (k, none) → s = k ∧ sep ∉ k := by
  intro s
  induction s with
  | nil =>
    intro k h
    simp only [split1, Prod.mk.injEq] at h
    exact ⟨h.1, by rw [← h.1]; simp⟩
  | cons c rest ih =>
    intro k h
    by_cases hc : c = sep
    · simp [split1, if_pos hc] at h
    · cases hrest : split1 sep rest with
    | mk k1 v1 =>
      simp only [split1, if_neg hc, hrest, Prod.mk.injEq] at h
      obtain ⟨hk, hv⟩ := h
      subst hv
      obtain ⟨he, hm⟩ := ih hrest
      subst he
      subst hk
      constructor
      · rfl
      · intro hmem
        rcases List.mem_cons.mp hmem with h1 | h1
        · exact hc h1.symm
        · exact hm h1

theorem readline_of_line :
    ∀ (n : Nat) (m rest : Bytes), NL ∉ m → m.length < n →
      readline n (m ++ NL :: rest) = (m ++ [NL], rest) := by
  intro n m
  induction m generalizing n with
  | nil =>
    intro rest _ hlen
    cases n with
    | zero => omega
    | succ k => simp [readline]
  | cons c m ih =>
    intro rest hNL hlen
    cases n with
    | zero => omega
    | succ k =>
      have hc : ¬(c = NL) := by
        intro he
        exact hNL (by simp [he])
      have hm : NL ∉ m := fun hmm => hNL (List.mem_cons_of_mem _ hmm)
      have : readline k (m ++ NL :: rest) = (m ++ [NL], rest) := by
        apply ih
        · exact hm
        · simp at hlen
          omega
      simp [readline, hc, this]

theorem splitLinesAux_line :
    ∀ (m rest acc : Bytes), NL ∉ m →
      splitLinesAux (m ++ NL :: rest) acc =
        ((acc.reverse ++ m) ++ [NL]) :: splitLinesAux rest [] := by
  intro m
  induction m with
  | nil =>
    intro rest acc _
    simp [splitLinesAux]
  | cons c m ih =>
    intro rest acc hNL
    have hc : ¬(c = NL) := by
      intro he
      exact hNL (by simp [he])
    have hm : NL ∉ m := fun hmm => hNL (List.mem_cons_of_mem _ hmm)
    simp only [List.cons_append, splitLinesAux, if_neg hc, List.append_eq]
    rw [ih rest (c :: acc) hm]
    simp

theorem splitLines_cons (m rest : Bytes) (h : NL ∉ m) :
    splitLines (m ++ NL :: rest) = (m ++ [NL]) :: splitLines rest := by
  unfold splitLines
  rw [splitLinesAux_line m rest [] h]
  simp

theorem splitLinesAux_mem :
    ∀ (b acc line : Bytes), NL ∉ acc → line ∈ splitLinesAux b acc →
      ∃ body : Bytes, NL ∉ body ∧ (line = body ++ [NL] ∨ line = body) := by
  intro b
  induction b with
  | nil =>
    intro acc line hacc hmem
    simp only [splitLinesAux] at hmem
    split at hmem
    · simp at hmem
    · simp only [List.mem_singleton] at hmem
      subst hmem
      exact ⟨acc.reverse, by simpa using hacc, .inr rfl⟩
  | cons c rest ih =>
    intro acc line hacc hmem
    simp only [splitLinesAux] at hmem
    split at hmem
    next hc =>
      subst hc
      rcases List.mem_cons.mp hmem with h1 | h1
      · exact ⟨acc.reverse, by simpa using hacc, .inl h1⟩
      · exact ih [] line (by simp) h1
    next hc =>
      apply ih (c :: acc) line _ hmem
      intro hmm
      rcases List.mem_cons.mp hmm with h1 | h1
      · exact hc h1.symm
      · exact hacc h1

theorem splitLines_mem_no_NL {b line : Bytes} (h : line ∈ splitLines b) :
    NL ∉ rstripNL line := by
  obtain ⟨body, hbody, hshape⟩ := splitLinesAux_mem b [] line (by simp) h
  rcases hshape with h1 | h1
  · subst h1
    rw [rstripNL_append_NL, rstripNL_of_no_NL hbody]
    exact hbody
  · subst h1
    rw [rstripNL_of_no_NL hbody]
    exact hbody

/-! Facts about the dict model. -/

theorem dictHasKey_iff {d : Dict} {k : Bytes} :
    dictHasKey d k = true ↔ k ∈ d.map Prod.fst := by
  unfold dictHasKey
  rw [List.any_eq_true]
  constructor
  · rintro ⟨p, hp, he⟩
    rw [beq_iff_eq] at he
    exact List.mem_map.mpr ⟨p, hp, he⟩
  · intro hm
    obtain ⟨p, hp, he⟩ := List.mem_map.mp hm
    exact ⟨p, hp, by rw [beq_iff_eq]; exact he⟩

theorem mem_keys_of_mem {d : Dict} {kv : Bytes × Bytes} (h : kv ∈ d) :
    kv.1 ∈ d.map Prod.fst :=
  List.mem_map.mpr ⟨kv, h, rfl⟩

theorem eq_of_mem_nodupKeys {d : Dict} (hnd : (d.map Prod.fst).Nodup)
    {p q : Bytes × Bytes} (hp : p ∈ d) (hq : q ∈ d) (hk : p.1 = q.1) : p = q := by
  induction d with
  | nil => simp at hp
  | cons x d ih =>
    simp only [List.map_cons, List.nodup_cons] at hnd
    rcases List.mem_cons.mp hp with h1 | h1
    · rcases List.mem_cons.mp hq with h2 | h2
      · rw [h1, h2]
      · exfalso
        apply hnd.1
        subst h1
        rw [hk]
        exact mem_keys_of_mem h2
    · rcases List.mem_cons.mp hq with h2 | h2
      · exfalso
        apply hnd.1
        subst h2
        rw [← hk]
        exact mem_keys_of_mem h1
      · exact ih hnd.2 h1 h2

theorem dictGet?_eq_some_of_mem {d : Dict} (hnd : (d.map Prod.fst).Nodup)
    {k v : Bytes} (h : (k, v) ∈ d) : dictGet? d k = some v := by
  unfold dictGet?
  induction d with
  | nil => simp at h
  | cons x d ih =>
    simp only [List.map_cons, List.nodup_cons] at hnd
    rcases List.mem_cons.mp h with h1 | h1
    · rw [← h1]
      simp [List.find?_cons]
    · have hx : (x.1 == k) = false := by
        simp only [beq_eq_false_iff_ne, ne_eq]
        intro he
        apply hnd.1
        rw [he]
        exact mem_keys_of_mem h1
      simp only [List.find?_cons, hx]
      exact ih hnd.2 h1

theorem dictGet?_mem {d : Dict} {k v : Bytes} (h : dictGet? d k = some v) : (k, v) ∈ d := by
  unfold dictGet? at h
  cases hf : d.find? (fun p => p.1 == k) with
  | none =>
    rw [hf] at h
    cases h
  | some p =>
    rw [hf] at h
    simp at h
    have hp : p ∈ d := List.mem_of_find?_eq_some hf
    have hk := List.find?_some hf
    simp only [beq_iff_eq] at hk
    have : p = (k, v) := by
      rw [Prod.ext_iff]
      exact ⟨hk, h⟩
    rw [← this]
    exact hp

theorem dictSet_keys (d : Dict) (k v : Bytes) :
    (dictSet d k v).map Prod.fst = d.map Prod.fst ∨
      ((dictSet d k v).map Prod.fst = d.map Prod.fst ++ [k] ∧ k ∉ d.map Prod.fst) := by
  unfold dictSet
  split
  next hhas =>
    left
    rw [List.map_map]
    apply List.map_congr_left
    intro p _
    simp only [Function.comp_apply]
    split
    next he =>
      rw [beq_iff_eq] at he
      exact he.symm
    next he => rfl
  next hhas =>
    right
    constructor
    · simp
    · intro hk
      exact hhas (dictHasKey_iff.mpr hk)

theorem keysNodup_dictSet {d : Dict} {k v : Bytes} (h : (d.map Prod.fst).Nodup) :
    ((dictSet d k v).map Prod.fst).Nodup := by
  rcases dictSet_keys d k v with he | ⟨he, hk⟩
  · rw [he]
    exact h
  · rw [he]
    rw [List.nodup_append]
    exact ⟨h, List.nodup_singleton k, by simpa using hk⟩

theorem mem_dictSet_self (d : Dict) (k v : Bytes) : (k, v) ∈ dictSet d k v := by
  unfold dictSet
  split
  next hhas =>
    unfold dictHasKey at hhas
    obtain ⟨p, hp, he⟩ := List.any_eq_true.mp hhas
    apply List.mem_map.mpr
    exact ⟨p, hp, by rw [if_pos he]⟩
  next hhas => simp

theorem mem_dictSet_of_ne {d : Dict} {k1 v1 k v : Bytes}
    (h : (k1, v1) ∈ d) (hne : k1 ≠ k) : (k1, v1) ∈ dictSet d k v := by
  unfold dictSet
  split
  next hhas =>
    apply List.mem_map.mpr
    exact ⟨(k1, v1), h, by simp [hne]⟩
  next hhas => exact List.mem_append_left _ h

theorem mem_dictSet_elim {d : Dict} {k v : Bytes} {p : Bytes × Bytes}
    (h : p ∈ dictSet d k v) : p = (k, v) ∨ (p ∈ d ∧ p.1 ≠ k) := by
  unfold dictSet at h
  split at h
  next hhas =>
    obtain ⟨q, hq, he⟩ := List.mem_map.mp h
    by_cases hqk : (q.1 == k) = true
    · rw [if_pos hqk] at he
      exact .inl he.symm
    · rw [if_neg hqk] at he
      right
      subst he
      exact ⟨hq, by simpa using hqk⟩
  next hhas =>
    rcases List.mem_append.mp h with h1 | h1
    · right
      refine ⟨h1, fun he => ?_⟩
      apply hhas
      rw [dictHasKey_iff]
      rw [← he]
      exact mem_keys_of_mem h1
    · left
      simpa using h1

theorem dictSet_eq_self {d : Dict} (hnd : (d.map Prod.fst).Nodup) {k v : Bytes}
    (h : (k, v) ∈ d) : dictSet d k v = d := by
  unfold dictSet
  rw [if_pos (dictHasKey_iff.mpr (mem_keys_of_mem h))]
  have hcong : ∀ p ∈ d, (if p.1 == k then (k, v) else p) = p := by
    intro p hp
    split
    next he =>
      rw [beq_iff_eq] at he
      exact eq_of_mem_nodupKeys hnd h hp (by rw [he])
    next he => rfl
  rw [List.map_congr_left hcong]
  simp

theorem dictSet_of_not_has {d : Dict} {k v : Bytes} (h : dictHasKey d k = false) :
    dictSet d k v = d ++ [(k, v)] := by
  unfold dictSet
  rw [if_neg (by simp [h])]

theorem parseAttrLines_encode :
    ∀ (items : List (Bytes × Bytes)) (d : Dict),
      (∀ kv ∈ items, SP ∉ kv.1 ∧ NL ∉ kv.1 ∧ NL ∉ kv.2) →
      (d.map Prod.fst ++ items.map Prod.fst).Nodup →
      parseAttrLines (items.map lineOf) d = .ok (d ++ items) := by
  intro items
  induction items with
  | nil =>
    intro d _ _
    simp [parseAttrLines]
  | cons kv items ih =>
    intro d hgood hnd
    obtain ⟨hSP, hNLk, hNLv⟩ := hgood kv (List.mem_cons_self _ _)
    have hline : rstripNL (lineOf kv) = kv.1 ++ SP :: kv.2 := by
      have he : lineOf kv = (kv.1 ++ SP :: kv.2) ++ [NL] := by
        simp [lineOf]
      rw [he, rstripNL_append_NL, rstripNL_of_no_NL]
      intro hm
      rcases List.mem_append.mp hm with h1 | h1
      · exact hNLk h1
      · rcases List.mem_cons.mp h1 with h2 | h2
        · revert h2
          unfold NL SP
          omega
        · exact hNLv h2
    have hsplit : split1 SP (rstripNL (lineOf kv)) = (kv.1, some kv.2) := by
      rw [hline]
      exact split1_append SP kv.1 kv.2 hSP
    have hknotin : dictHasKey d kv.1 = false := by
      cases hk : dictHasKey d kv.1
      · rfl
      · exfalso
        rw [dictHasKey_iff] at hk
        have hdisj := (List.nodup_append.mp (by simpa using hnd)).2.2
        exact hdisj hk (by simp)
    simp only [List.map_cons, parseAttrLines, hsplit]
    rw [dictSet_of_not_has hknotin]
    rw [ih (d ++ [(kv.1, kv.2)]) (fun x hx => hgood x (List.mem_cons_of_mem _ hx)) ?_]
    · simp
    · simpa using hnd

/-! Bridge between the join-based serializer output and the line view. -/

theorem attrLine_append_NL (kv : Bytes × Bytes) : attrLine kv ++ [NL] = lineOf kv := by
  simp [attrLine, lineOf]

theorem flatten_shift (ls : List Bytes) :
    (ls.map (fun y => NL :: y)).flatten ++ [NL] =
      NL :: (ls.map (fun y => y ++ [NL])).flatten := by
  induction ls with
  | nil => simp
  | cons y ys ih =>
    simp only [List.map_cons, List.flatten_cons, List.cons_append, List.append_assoc, ih]
    simp

theorem joinNL_encode (x : Bytes × Bytes) (xs : List (Bytes × Bytes)) :
    joinWith [NL] ((x :: xs).map attrLine) ++ [NL] = lineOf x ++ encodeLines xs := by
  simp only [List.map_cons, joinWith, List.singleton_append, List.append_assoc]
  rw [flatten_shift]
  simp only [encodeLines, List.map_map, Function.comp_def, attrLine_append_NL]
  rw [← attrLine_append_NL]
  simp

theorem splitLines_encodeLines :
    ∀ items : List (Bytes × Bytes), (∀ kv ∈ items, NL ∉ kv.1 ∧ NL ∉ kv.2) →
      splitLines (encodeLines items) = items.map lineOf := by
  intro items
  induction items with
  | nil => intro _; rfl
  | cons kv items ih =>
    intro hgood
    obtain ⟨hk, hv⟩ := hgood kv (List.mem_cons_self _ _)
    have hm : NL ∉ kv.1 ++ SP :: kv.2 := by
      intro hmem
      rcases List.mem_append.mp hmem with h1 | h1
      · exact hk h1
      · rcases List.mem_cons.mp h1 with h2 | h2
        · revert h2
          unfold NL SP
          omega
        · exact hv h2
    have he : encodeLines (kv :: items) = (kv.1 ++ SP :: kv.2) ++ NL :: encodeLines items := by
      simp [encodeLines, lineOf]
    rw [he, splitLines_cons _ _ hm, ih (fun x hx => hgood x (List.mem_cons_of_mem _ hx))]
    simp [lineOf]

/-! Invariants established by a successful parse. -/

theorem mk?_ok_inv {h : Bytes} {s : SHA256} (he : SHA256.mk? h = .ok s) :
    s.hexsha = h ∧ h.length = 64 ∧ h.all isHexDigit = true := by
  unfold SHA256.mk? at he
  split at he
  · cases he
  next h1 =>
    split at he
    · cases he
    next h2 =>
      cases he
      refine ⟨rfl, by omega, by simpa using h2⟩

theorem parseAttrLines_inv :
    ∀ (lines : List Bytes) (d attrs : Dict),
      (∀ l ∈ lines, NL ∉ rstripNL l) →
      (d.map Prod.fst).Nodup →
      (∀ kv ∈ d, SP ∉ kv.1 ∧ NL ∉ kv.1 ∧ NL ∉ kv.2) →
      parseAttrLines lines d = .ok attrs →
      (attrs.map Prod.fst).Nodup ∧ (∀ kv ∈ attrs, SP ∉ kv.1 ∧ NL ∉ kv.1 ∧ NL ∉ kv.2) := by
  intro lines
  induction lines with
  | nil =>
    intro d attrs _ hnd hgood h
    simp only [parseAttrLines, Except.ok.injEq] at h
    subst h
    exact ⟨hnd, hgood⟩
  | cons line rest ih =>
    intro d attrs hlines hnd hgood h
    cases hsp : split1 SP (rstripNL line) with
    | mk key vo =>
      cases vo with
      | none =>
        simp only [parseAttrLines, hsp] at h
        cases h
      | some value =>
        simp only [parseAttrLines, hsp] at h
        obtain ⟨hs, hkeySP⟩ := split1_some_eq hsp
        have hnl := hlines line (List.mem_cons_self _ _)
        rw [hs] at hnl
        have hkeyNL : NL ∉ key := fun hmm => hnl (List.mem_append_left _ hmm)
        have hvalNL : NL ∉ value := fun hmm =>
          hnl (List.mem_append_right _ (List.mem_cons_of_mem _ hmm))
        apply ih (dictSet d key value) attrs
          (fun l hl => hlines l (List.mem_cons_of_mem _ hl))
          (keysNodup_dictSet hnd) ?_ h
        intro kv hkv
        rcases mem_dictSet_elim hkv with h1 | ⟨h1, _⟩
        · rw [h1]
          exact ⟨hkeySP, hkeyNL, hvalNL⟩
        · exact hgood kv h1

/-! Parsing and serializing a canonical attribute block. -/

theorem from_file_canon (items : List (Bytes × Bytes)) (n : Nat) (hex : Bytes)
    (hkeys : (items.map Prod.fst).Nodup)
    (hgood : ∀ kv ∈ items, SP ∉ kv.1 ∧ NL ∉ kv.1 ∧ NL ∉ kv.2)
    (hoid : (Key.OID, SHA256.digest_name ++ COLON :: hex) ∈ items)
    (hlen : hex.length = 64) (hhex : hex.all isHexDigit = true)
    (hsize : (Key.SIZE, natToBytes n) ∈ items) :
    Pointer.from_file (canonBytes items) = .ok ⟨items, some ⟨hex⟩, n⟩ := by
  have hver : canonBytes items =
      (Key.VERSION ++ SP :: Version.V1.value) ++ NL :: encodeLines items := by
    simp [canonBytes, lineOf]
  have hread : readline 256 (canonBytes items) =
      ((Key.VERSION ++ SP :: Version.V1.value) ++ [NL], encodeLines items) := by
    rw [hver]
    exact readline_of_line 256 _ _ (by decide) (by decide)
  have hvv : Pointer._verify_version ((Key.VERSION ++ SP :: Version.V1.value) ++ [NL]) =
      .vTrue := by decide
  have hsl : splitLines (encodeLines items) = items.map lineOf :=
    splitLines_encodeLines items (fun kv hkv => ⟨(hgood kv hkv).2.1, (hgood kv hkv).2.2⟩)
  have hpl : parseAttrLines (items.map lineOf) [] = .ok items := by
    have := parseAttrLines_encode items [] hgood (by simpa using hkeys)
    simpa using this
  have hget : dictGet? items Key.OID = some (SHA256.digest_name ++ COLON :: hex) :=
    dictGet?_eq_some_of_mem hkeys hoid
  have hc : split1 COLON (SHA256.digest_name ++ COLON :: hex) =
      (SHA256.digest_name, some hex) :=
    split1_append COLON _ _ (by decide)
  have hsup : supported_digests.contains SHA256.digest_name = true := by decide
  have hmk : SHA256.mk? hex = .ok ⟨hex⟩ := by
    unfold SHA256.mk?
    rw [if_neg (by omega), if_neg (by simp [hhex])]
  have hgets : dictGet? items Key.SIZE = some (natToBytes n) :=
    dictGet?_eq_some_of_mem hkeys hsize
  unfold Pointer.from_file
  rw [hread]
  simp only [hvv, hsl, hpl, hget, hc, hsup, hgets, hmk,
    bytesIsDigit_natToBytes, bytesToNat_natToBytes]
  simp

/-- The attribute items that `__bytes__` serializes: the attribute map with
`size` and `oid` overwritten from the fields, sorted. -/
def canonItems (p : Pointer) (s : SHA256) : List (Bytes × Bytes) :=
  List.insertionSort pairLe (dictSet (dictSet p._attrs Key.SIZE (natToBytes p.size))
    Key.OID (SHA256.digest_name ++ COLON :: s.hexsha))

theorem toBytes_ok_shape {p : Pointer} {s : SHA256} (hoid : p.oid = some s)
    (hascii : s.hexsha.any (fun c => 128 ≤ c) = false) :
    Pointer.toBytes p = .ok (canonBytes (canonItems p s)) := by
  unfold Pointer.toBytes canonItems
  rw [hoid]
  simp only [hascii, Bool.false_eq_true, if_false]
  rw [joinNL_encode]
  rfl

theorem toBytes_canon (items : List (Bytes × Bytes)) (n : Nat) (hex : Bytes)
    (hkeys : (items.map Prod.fst).Nodup)
    (hsorted : List.Sorted pairLe items)
    (hoid : (Key.OID, SHA256.digest_name ++ COLON :: hex) ∈ items)
    (hhex : hex.all isHexDigit = true)
    (hsize : (Key.SIZE, natToBytes n) ∈ items) :
    Pointer.toBytes ⟨items, some ⟨hex⟩, n⟩ = .ok (canonBytes items) := by
  have hascii : hex.any (fun c => 128 ≤ c) = false := by
    rw [List.any_eq_false]
    intro c hc
    have := isHexDigit_facts (List.all_eq_true.mp hhex c hc)
    simp only [decide_eq_true_eq]
    omega
  have h1 : dictSet items Key.SIZE (natToBytes n) = items := dictSet_eq_self hkeys hsize
  have h2 : dictSet items Key.OID (SHA256.digest_name ++ COLON :: hex) = items :=
    dictSet_eq_self hkeys hoid
  have h3 : List.insertionSort pairLe items = items := hsorted.insertionSort_eq
  rw [toBytes_ok_shape rfl hascii]
  unfold canonItems
  simp only []
  rw [h1, h2, h3]

theorem readline_nil_input (limit : Nat) {b line rest : Bytes}
    (h : readline (limit + 1) b = (line, rest)) (hl : line = []) : b = [] := by
  cases b with
  | nil => rfl
  | cons c r =>
    exfalso
    subst hl
    by_cases hc : c = NL
    · simp [readline, hc] at h
    · cases hrl : readline limit r with
      | mk l2 r2 => simp [readline, hc, hrl] at h

theorem from_file_ok_inv {b : Bytes} {p : Pointer} (h : Pointer.from_file b = .ok p) :
    ((p._attrs.map Prod.fst).Nodup ∧
      (∀ kv ∈ p._attrs, SP ∉ kv.1 ∧ NL ∉ kv.1 ∧ NL ∉ kv.2)) ∧
    (∀ s, p.oid = some s → s.hexsha.length = 64 ∧ s.hexsha.all isHexDigit = true) ∧
    (p.oid = none → b = []) ∧
    (∀ line rest, readline 256 b = (line, rest) → line ≠ [] →
      parseAttrLines (splitLines rest) [] = .ok p._attrs) := by
  unfold Pointer.from_file at h
  split at h
  rename_i line rest hrl
  split at h
  next hline =>
    cases h
    refine ⟨⟨by simp [Pointer.init], by simp [Pointer.init]⟩, ?_, ?_, ?_⟩
    · intro s hs
      simp [Pointer.init] at hs
    · intro _
      exact readline_nil_input 255 hrl hline
    · intro line2 rest2 hrl2 hline2
      rw [hrl] at hrl2
      cases hrl2
      exact absurd hline hline2
  next hline =>
    split at h
    next hvf => cases h
    next hvf =>
      split at h
      next e hpl => cases h
      next attrs hpl =>
        have hinv := parseAttrLines_inv (splitLines rest) [] attrs
          (fun l hl => splitLines_mem_no_NL hl) (by simp) (by simp) hpl
        split at h
        next hoid => cases h
        next oidValue hoid =>
          split at h
          next oidType hsp => cases h
          next oidType oidHash hsp =>
            split at h
            next hsupp => cases h
            next hsupp =>
              split at h
              next e hmk => cases h
              next oid hmk =>
                split at h
                next hsz => cases h
                next sizeValue hsz =>
                  split at h
                  next hdg => cases h
                  next hdg =>
                    cases h
                    obtain ⟨hsha, hl64, hhx⟩ := mk?_ok_inv hmk
                    refine ⟨hinv, ?_, ?_, ?_⟩
                    · intro s hs
                      simp only [Option.some.injEq] at hs
                      subst hs
                      rw [hsha]
                      exact ⟨hl64, hhx⟩
                    · intro hno
                      simp at hno
                    · intro line2 rest2 hrl2 hline2
                      rw [hrl] at hrl2
                      cases hrl2
                      exact hpl

theorem toBytes_ok_oid {p : Pointer} {o : Bytes} (h : Pointer.toBytes p = .ok o) :
    ∃ s, p.oid = some s ∧ s.hexsha.any (fun c => 128 ≤ c) = false := by
  unfold Pointer.toBytes at h
  split at h
  next hnone => cases h
  next s hs =>
    refine ⟨s, hs, ?_⟩
    split at h
    next ha => cases h
    next ha => simpa using ha

/-- Invariant bundle for the sorted overwritten attribute list of a record
whose attribute map satisfies the parse invariants. -/
theorem canonItems_facts {p : Pointer} {s : SHA256}
    (hnd : (p._attrs.map Prod.fst).Nodup)
    (hgood : ∀ kv ∈ p._attrs, SP ∉ kv.1 ∧ NL ∉ kv.1 ∧ NL ∉ kv.2)
    (hhx : s.hexsha.all isHexDigit = true) :
    ((canonItems p s).map Prod.fst).Nodup ∧
    (∀ kv ∈ canonItems p s, SP ∉ kv.1 ∧ NL ∉ kv.1 ∧ NL ∉ kv.2) ∧
    List.Sorted pairLe (canonItems p s) ∧
    (Key.OID, SHA256.digest_name ++ COLON :: s.hexsha) ∈ canonItems p s ∧
    (Key.SIZE, natToBytes p.size) ∈ canonItems p s := by
  have hnd2 : (((dictSet (dictSet p._attrs Key.SIZE (natToBytes p.size)) Key.OID
      (SHA256.digest_name ++ COLON :: s.hexsha))).map Prod.fst).Nodup :=
    keysNodup_dictSet (keysNodup_dictSet hnd)
  have hgood2 : ∀ kv ∈ dictSet (dictSet p._attrs Key.SIZE (natToBytes p.size)) Key.OID
      (SHA256.digest_name ++ COLON :: s.hexsha), SP ∉ kv.1 ∧ NL ∉ kv.1 ∧ NL ∉ kv.2 := by
    intro kv hkv
    rcases mem_dictSet_elim hkv with h1 | ⟨h1, _⟩
    · rw [h1]
      refine ⟨?_, ?_, ?_⟩
      · show SP ∉ Key.OID
        decide
      · show NL ∉ Key.OID
        decide
      · show NL ∉ SHA256.digest_name ++ COLON :: s.hexsha
        intro hm
        rcases List.mem_append.mp hm with h2 | h2
        · revert h2
          decide
        · rcases List.mem_cons.mp h2 with h3 | h3
          · revert h3
            decide
          · exact absurd rfl (isHexDigit_facts (List.all_eq_true.mp hhx _ h3)).1
    · rcases mem_dictSet_elim h1 with h4 | ⟨h4, _⟩
      · rw [h4]
        refine ⟨?_, ?_, ?_⟩
        · show SP ∉ Key.SIZE
          decide
        · show NL ∉ Key.SIZE
          decide
        · show NL ∉ natToBytes p.size
          exact natToBytes_no_NL _
      · exact hgood kv h4
  have hperm : (canonItems p s).Perm (dictSet (dictSet p._attrs Key.SIZE
      (natToBytes p.size)) Key.OID (SHA256.digest_name ++ COLON :: s.hexsha)) :=
    List.perm_insertionSort pairLe _
  refine ⟨?_, ?_, ?_, ?_, ?_⟩
  · rw [List.Perm.nodup_iff (hperm.map Prod.fst)]
    exact hnd2
  · intro kv hkv
    exact hgood2 kv (hperm.mem_iff.mp hkv)
  · exact List.sorted_insertionSort pairLe _
  · rw [hperm.mem_iff]
    exact mem_dictSet_self _ _ _
  · rw [hperm.mem_iff]
    exact mem_dictSet_of_ne (mem_dictSet_self _ _ _) (by decide)

/-- General round-trip idempotence: when parsing succeeds and the parsed
record serializes, the serialized output parses again and re-serializes to
the identical bytes. -/
theorem unhexlify_length : ∀ l : Bytes, (unhexlify l).length = l.length / 2
  | [] => by simp [unhexlify]
  | [a] => by simp [unhexlify]
  | a :: b :: rest => by
    simp only [unhexlify, List.length_cons, unhexlify_length rest]
    omega

theorem endsWithNL_concat (l : Bytes) : endsWithNL (l ++ [NL]) = true := by
  simp [endsWithNL, List.getLast?_concat]

theorem containsSP_iff {l : Bytes} : containsSP l = true ↔ SP ∈ l := by
  unfold containsSP
  rw [List.any_eq_true]
  constructor
  · rintro ⟨c, hc, he⟩
    rw [beq_iff_eq] at he
    exact he ▸ hc
  · intro hm
    exact ⟨SP, hm, by simp⟩

/-- Updating a key whose head entry has a different key commutes with cons. -/
theorem dictSet_cons_of_ne {x : Bytes × Bytes} {d : Dict} {k v : Bytes}
    (hx : (x.1 == k) = false) : dictSet (x :: d) k v = x :: dictSet d k v := by
  unfold dictSet dictHasKey
  simp only [List.any_cons, hx, Bool.false_or]
  split
  next hhas =>
    simp only [List.map_cons, hx]
    rw [if_neg (by simp [hx])]
  next hhas => simp

/-- Last write wins: after `d[k] = v`, looking up `k` yields `v`. -/
theorem dictGet?_dictSet_self : ∀ (d : Dict) (k v : Bytes),
    dictGet? (dictSet d k v) k = some v := by
  intro d
  induction d with
  | nil =>
    intro k v
    simp [dictSet, dictHasKey, dictGet?, List.find?_cons]
  | cons x d ih =>
    intro k v
    by_cases hx : (x.1 == k) = true
    · have hhas : dictHasKey (x :: d) k = true := by
        unfold dictHasKey
        simp only [List.any_cons, hx, Bool.true_or]
      unfold dictSet
      rw [if_pos hhas]
      simp only [List.map_cons, hx, if_true]
      unfold dictGet?
      rw [List.find?_cons_of_pos _ (by simp)]
      rfl
    · rw [dictSet_cons_of_ne (by simpa using hx)]
      unfold dictGet?
      rw [List.find?_cons_of_neg _ (by simpa using hx)]
      exact ih k v

/-- Processing an attribute line with the canonical `key value` newline shape. -/
theorem rstrip_split_lineOf {k w : Bytes} (hSP : SP ∉ k) (hNLk : NL ∉ k) (hNLw : NL ∉ w) :
    split1 SP (rstripNL (lineOf (k, w))) = (k, some w) := by
  have he : lineOf (k, w) = (k ++ SP :: w) ++ [NL] := by
    simp [lineOf]
  rw [he, rstripNL_append_NL, rstripNL_of_no_NL]
  · exact split1_append SP k w hSP
  · intro hm
    rcases List.mem_append.mp hm with h1 | h1
    · exact hNLk h1
    · rcases List.mem_cons.mp h1 with h2 | h2
      · revert h2
        unfold NL SP
        omega
      · exact hNLw h2

/-- If the last attribute line is a well-shaped `key value` line, the parsed
dict maps that key to that value, whatever the earlier lines were. -/
theorem parseAttrLines_last :
    ∀ (ls : List Bytes) (d : Dict) {k w : Bytes} {attrs : Dict},
      SP ∉ k → NL ∉ k → NL ∉ w →
      parseAttrLines (ls ++ [lineOf (k, w)]) d = .ok attrs →
      dictGet? attrs k = some w := by
  intro ls
  induction ls with
  | nil =>
    intro d k w attrs hSP hNLk hNLw h
    simp only [List.nil_append, parseAttrLines, rstrip_split_lineOf hSP hNLk hNLw] at h
    cases h
    exact dictGet?_dictSet_self d k w
  | cons l ls ih =>
    intro d k w attrs hSP hNLk hNLw h
    simp only [List.cons_append, parseAttrLines] at h
    cases hsp : split1 SP (rstripNL l) with
    | mk key vo =>
      cases vo with
      | none =>
        simp only [hsp] at h
        cases h
      | some value =>
        simp only [hsp] at h
        exact ih _ hSP hNLk hNLw h

theorem readline_canonBytes (items : List (Bytes × Bytes)) :
    readline 256 (canonBytes items) =
      ((Key.VERSION ++ SP :: Version.V1.value) ++ [NL], encodeLines items) := by
  have hver : canonBytes items =
      (Key.VERSION ++ SP :: Version.V1.value) ++ NL :: encodeLines items := by
    simp [canonBytes, lineOf]
  rw [hver]
  exact readline_of_line 256 _ _ (by decide) (by decide)

/-- Unfolding of `from_file` past a successfully verified version line and a
successfully parsed attribute block. -/
theorem from_file_step {b line rest : Bytes} {attrs : Dict}
    (hrl : readline 256 b = (line, rest)) (hline : line ≠ [])
    (hvf : Pointer._verify_version line ≠ .vFalse)
    (hpl : parseAttrLines (splitLines rest) [] = .ok attrs) :
    Pointer.from_file b =
      (match dictGet? attrs Key.OID with
       | none => .error .keyError
       | some oidValue =>
         match split1 COLON oidValue with
         | (_, none) => .error .valueError
         | (oidType, some oidHash) =>
           if !(supported_digests.contains oidType) then .error .pointerFormat
           else
             match SHA256.mk? oidHash with
             | .error e => .error e
             | .ok oid =>
               match dictGet? attrs Key.SIZE with
               | none => .error .keyError
               | some sizeValue =>
                 if !(bytesIsDigit sizeValue) then .error .pointerFormat
                 else .ok { _attrs := attrs, oid := some oid, size := bytesToNat sizeValue }) := by
  unfold Pointer.from_file
  simp only [hrl]
  rw [if_neg hline, if_neg hvf]
  simp only [hpl]

theorem roundtrip_general {b o : Bytes} {p : Pointer}
    (hparse : Pointer.from_file b = .ok p) (hser : Pointer.toBytes p = .ok o) :
    ∃ p2, Pointer.from_file o = .ok p2 ∧ Pointer.toBytes p2 = .ok o := by
  obtain ⟨s, hpo, hascii⟩ := toBytes_ok_oid hser
  obtain ⟨⟨hnd, hgood⟩, hoidfacts, _, _⟩ := from_file_ok_inv hparse
  obtain ⟨hl64, hhx⟩ := hoidfacts s hpo
  obtain ⟨hndI, hgoodI, hsortI, hoidI, hsizeI⟩ := canonItems_facts hnd hgood hhx
  have hO : o = canonBytes (canonItems p s) := by
    have hshape := toBytes_ok_shape hpo hascii
    rw [hser] at hshape
    simpa using hshape
  refine ⟨⟨canonItems p s, some ⟨s.hexsha⟩, p.size⟩, ?_, ?_⟩
  · rw [hO]
    exact from_file_canon (canonItems p s) p.size s.hexsha hndI hgoodI hoidI hl64 hhx hsizeI
  · rw [hO]
    exact toBytes_canon (canonItems p s) p.size s.hexsha hndI hsortI hoidI hhx hsizeI

/-! Attribute lists whose keys are strictly increasing byte-lexicographically. -/

theorem strictSorted_keysNodup {items : List (Bytes × Bytes)}
    (h : List.Pairwise (fun a b : Bytes × Bytes => bytesLt a.1 b.1 = true) items) :
    (items.map Prod.fst).Nodup := by
  rw [List.Nodup, List.pairwise_map]
  apply h.imp
  intro a b hab he
  rw [he, bytesLt_irrefl] at hab
  cases hab

theorem strictSorted_pairLe {items : List (Bytes × Bytes)}
    (h : List.Pairwise (fun a b : Bytes × Bytes => bytesLt a.1 b.1 = true) items) :
    List.Sorted pairLe items := by
  apply h.imp
  intro a b hab
  have h1 : bytesLt b.1 a.1 = false := bytesLt_asymm _ _ hab
  have h2 : (b.1 == a.1) = false := by
    simp only [beq_eq_false_iff_ne, ne_eq]
    intro he
    rw [← he, bytesLt_irrefl] at hab
    cases hab
  unfold pairLe pairLt
  rw [h1, h2]
  rfl

/-- Parsing then serializing a fully canonical pointer file is the identity
on the byte level, provided the size attribute is in minimal decimal form,
the attribute keys are strictly sorted, and the oid is well formed. -/
theorem canonical_parse_serialize (items : List (Bytes × Bytes)) (n : Nat) (hex : Bytes)
    (hsorted : List.Pairwise (fun a b : Bytes × Bytes => bytesLt a.1 b.1 = true) items)
    (hgood : ∀ kv ∈ items, SP ∉ kv.1 ∧ NL ∉ kv.1 ∧ NL ∉ kv.2)
    (hoid : (Key.OID, SHA256.digest_name ++ COLON :: hex) ∈ items)
    (hlen : hex.length = 64) (hhex : hex.all isHexDigit = true)
    (hsize : (Key.SIZE, natToBytes n) ∈ items) :
    Pointer.from_file (canonBytes items) = .ok ⟨items, some ⟨hex⟩, n⟩ ∧
      Pointer.toBytes (⟨items, some ⟨hex⟩, n⟩ : Pointer) = .ok (canonBytes items) :=
  ⟨from_file_canon items n hex (strictSorted_keysNodup hsorted) hgood hoid hlen hhex hsize,
   toBytes_canon items n hex (strictSorted_keysNodup hsorted) (strictSorted_pairLe hsorted)
     hoid hhex hsize⟩

theorem hex_ascii {l : Bytes} (h : l.all isHexDigit = true) :
    l.any (fun c => 128 ≤ c) = false := by
  rw [List.any_eq_false]
  intro c hc
  simp only [decide_eq_true_eq]
  have := (isHexDigit_facts (List.all_eq_true.mp h c hc)).2
  omega

theorem mem_dictSet_key_val {d : Dict} {k v w : Bytes} (h : (k, w) ∈ dictSet d k v) :
    w = v := by
  rcases mem_dictSet_elim h with h1 | ⟨_, hne⟩
  · exact congrArg Prod.snd h1
  · exact absurd rfl hne

theorem pairLe_key_le {a b : Bytes × Bytes} (h : pairLe a b) : bytesLt b.1 a.1 = false := by
  unfold pairLe pairLt at h
  exact (Bool.or_eq_false_iff.mp h).1

/-! Concrete pointer files used as witnesses (from the source doctests). -/

/-- The 64 hex digest characters appearing in the source doctests. -/
def exHex : Bytes :=
  strBytes ("4d7a214614ab2935c943f9e0ff69d22eadbb8f32b1258daaa5e2ca24d17e2393")

/-- The canonical doctest pointer file. -/
def exIn : Bytes :=
  strBytes ("version https://git-lfs.github.com/spec/v1\noid sha256:4d7a214614ab2935c943f9e0ff69d22eadbb8f32b1258daaa5e2ca24d17e2393\nsize 12345\n")

/-- The record parsed from `exIn`. -/
def exP : Pointer :=
  { _attrs := [(Key.OID, SHA256.digest_name ++ COLON :: exHex),
               (Key.SIZE, strBytes ("12345"))],
    oid := some ⟨exHex⟩, size := 12345 }

/-- The attribute items of `exIn` (strictly key-sorted: `oid` before `size`). -/
def exItems : List (Bytes × Bytes) :=
  [(Key.OID, SHA256.digest_name ++ COLON :: exHex), (Key.SIZE, strBytes ("12345"))]

/-- C1 (amended): for every input whose parse and serialization succeed,
serializing, re-parsing and re-serializing is byte-identical to the first
serialization; and parsing a canonical pointer file then serializing
reproduces it byte-for-byte, where canonical additionally requires the
attribute keys strictly sorted (hence pairwise distinct) and the size value
in minimal decimal form (`natToBytes` of its numeric value). -/
theorem C1_roundtrip_idempotence :
    (∀ (b : Bytes) (p : Pointer) (o : Bytes),
      Pointer.from_bytes b = .ok p → Pointer.toBytes p = .ok o →
      ∃ p2, Pointer.from_bytes o = .ok p2 ∧ Pointer.toBytes p2 = .ok o) ∧
    (∀ (items : List (Bytes × Bytes)) (n : Nat) (hex : Bytes),
      List.Pairwise (fun a b : Bytes × Bytes => bytesLt a.1 b.1 = true) items →
      (∀ kv ∈ items, SP ∉ kv.1 ∧ NL ∉ kv.1 ∧ NL ∉ kv.2) →
      (Key.OID, SHA256.digest_name ++ COLON :: hex) ∈ items →
      hex.length = 64 → hex.all isHexDigit = true →
      (Key.SIZE, natToBytes n) ∈ items →
      ∃ p, Pointer.from_bytes (canonBytes items) = .ok p ∧
        Pointer.toBytes p = .ok (canonBytes items)) := by
  constructor
  · intro b p o hp ho
    exact roundtrip_general hp ho
  · intro items n hex h1 h2 h3 h4 h5 h6
    obtain ⟨ha, hb⟩ := canonical_parse_serialize items n hex h1 h2 h3 h4 h5 h6
    exact ⟨_, ha, hb⟩

/-- Witness for C1 at the doctest pointer file. -/
theorem C1_roundtrip_idempotence_witness :
    (∃ p2, Pointer.from_bytes exIn = .ok p2 ∧ Pointer.toBytes p2 = .ok exIn) ∧
    (∃ p, Pointer.from_bytes (canonBytes exItems) = .ok p ∧
      Pointer.toBytes p = .ok (canonBytes exItems)) :=
  ⟨C1_roundtrip_idempotence.1 exIn exP exIn (by decide) (by decide),
   C1_roundtrip_idempotence.2 exItems 12345 exHex (by decide) (by decide) (by decide)
     (by decide) (by decide) (by decide)⟩

/-- A pointer file that is canonical in the claim C1 sense (primary schema
URI, attributes in sorted key order, each line key-space-value-newline) but
whose size value carries a leading zero. -/
def cxIn : Bytes :=
  strBytes ("version https://git-lfs.github.com/spec/v1\noid sha256:4d7a214614ab2935c943f9e0ff69d22eadbb8f32b1258daaa5e2ca24d17e2393\nsize 01\n")

/-- What the code emits for `cxIn`: the size is re-rendered as `1`. -/
def cxOut : Bytes :=
  strBytes ("version https://git-lfs.github.com/spec/v1\noid sha256:4d7a214614ab2935c943f9e0ff69d22eadbb8f32b1258daaa5e2ca24d17e2393\nsize 1\n")

/-- The record parsed from `cxIn`. -/
def cxP : Pointer :=
  { _attrs := [(Key.OID, SHA256.digest_name ++ COLON :: exHex),
               (Key.SIZE, strBytes ("01"))],
    oid := some ⟨exHex⟩, size := 1 }

/-- C1 counterexample: `cxIn` is canonical exactly as the claim defines it
(primary schema URI, keys `oid` < `size` sorted, each line `key value`
terminated), yet serialize(parse(cxIn)) = cxOut differs from cxIn because
the size value `01` is re-rendered as `1`. -/
theorem C1_counterexample :
    Pointer.from_bytes cxIn = .ok cxP ∧ Pointer.toBytes cxP = .ok cxOut ∧ cxOut ≠ cxIn :=
  ⟨by decide, by decide, by decide⟩

/-- The C4 failing input: first line has key `Version`, not `version`. -/
def c4In : Bytes :=
  strBytes ("Version 1\noid sha256:4d7a214614ab2935c943f9e0ff69d22eadbb8f32b1258daaa5e2ca24d17e2393\nsize 1\n")

/-- The record the code actually returns for `c4In`. -/
def c4P : Pointer :=
  { _attrs := [(Key.OID, SHA256.digest_name ++ COLON :: exHex),
               (Key.SIZE, strBytes ("1"))],
    oid := some ⟨exHex⟩, size := 1 }

/-- C4 (code-bug evidence): `_verify_version` RETURNS the constructed
`PointerFormatException` object instead of raising it, and
`if not self._verify_version(line)` treats that truthy object as a pass, so
an input with a malformed version line parses successfully instead of
failing with the format error; and an attribute line with no space fails
with `ValueError` from tuple unpacking, again not with the format error. -/
theorem C4_malformed_structure_not_format_error :
    Pointer._verify_version (strBytes ("Version 1\n")) = .vExc ∧
    Pointer.from_bytes c4In = .ok c4P ∧
    Pointer.from_bytes
      (strBytes ("version https://git-lfs.github.com/spec/v1\nnospace\n")) =
        .error .valueError :=
  ⟨by decide, by decide, by decide⟩

/-- The C5 counterexample input: a valid version line and nothing else. -/
def c5In : Bytes := strBytes ("version https://git-lfs.github.com/spec/v1\n")

/-- C5 counterexample: the version-line-only input fails with `KeyError`
(missing `oid` dict key), not with the pointer format error. -/
theorem C5_counterexample :
    Pointer.from_bytes c5In = .error .keyError ∧
      Pointer.from_bytes c5In ≠ .error .pointerFormat :=
  ⟨by decide, by decide⟩

/-- C5 (amended): once the version line is accepted and the attribute lines
parse, a missing `oid` key makes parsing fail with `KeyError`; with a
missing `size` key no record is ever returned (the parse fails with
`KeyError` after oid validation, or earlier with an oid error). -/
theorem C5_missing_mandatory_attributes :
    (∀ (b line rest : Bytes) (attrs : Dict),
      readline 256 b = (line, rest) → line ≠ [] →
      Pointer._verify_version line ≠ .vFalse →
      parseAttrLines (splitLines rest) [] = .ok attrs →
      dictGet? attrs Key.OID = none →
      Pointer.from_bytes b = .error .keyError) ∧
    (∀ (b line rest : Bytes) (attrs : Dict),
      readline 256 b = (line, rest) → line ≠ [] →
      Pointer._verify_version line ≠ .vFalse →
      parseAttrLines (splitLines rest) [] = .ok attrs →
      dictGet? attrs Key.SIZE = none →
      ∀ p, Pointer.from_bytes b ≠ .ok p) := by
  constructor
  · intro b line rest attrs hrl hline hvf hpl hoid
    unfold Pointer.from_bytes
    rw [from_file_step hrl hline hvf hpl]
    simp only [hoid]
  · intro b line rest attrs hrl hline hvf hpl hsz p hp
    unfold Pointer.from_bytes at hp
    rw [from_file_step hrl hline hvf hpl] at hp
    split at hp
    next hoid => cases hp
    next oidValue hoid =>
      split at hp
      next t hsp => cases hp
      next oidType oidHash hsp =>
        split at hp
        next hsupp => cases hp
        next hsupp =>
          split at hp
          next e hmk => cases hp
          next oid hmk =>
            split at hp
            next hszn => cases hp
            next sizeValue hszn =>
              rw [hsz] at hszn
              cases hszn

/-- Witness for C5 at the version-line-only input. -/
theorem C5_missing_mandatory_attributes_witness :
    Pointer.from_bytes c5In = .error .keyError ∧
      (∀ p, Pointer.from_bytes c5In ≠ .ok p) :=
  ⟨C5_missing_mandatory_attributes.1 c5In c5In [] [] (by decide) (by decide) (by decide)
      (by decide) (by decide),
   C5_missing_mandatory_attributes.2 c5In c5In [] [] (by decide) (by decide) (by decide)
      (by decide) (by decide)⟩

/-- C9: parsing the empty byte stream yields the default empty record
(primary schema version, size 0, no digest) without error; and a successful
parse with no digest can only arise from the empty input. -/
theorem C9_empty_input :
    (Pointer.from_bytes [] = .ok Pointer.init ∧ Pointer.init.size = 0 ∧
      Pointer.init.oid = none ∧ Pointer.version Pointer.init = Version.V1) ∧
    (∀ (b : Bytes) (p : Pointer), Pointer.from_bytes b = .ok p → p.oid = none → b = []) := by
  constructor
  · exact ⟨by decide, rfl, rfl, rfl⟩
  · intro b p hp hno
    exact (from_file_ok_inv hp).2.2.1 hno

/-- Witness for C9, applying the only-empty-input direction at the empty
stream itself. -/
theorem C9_empty_input_witness : ([] : Bytes) = [] :=
  C9_empty_input.2 [] Pointer.init (by decide) rfl

/-- C2: for every record with a digest (whose stored hex is ASCII, as every
parsed digest is), serialization succeeds and consists of the canonical
version line followed by the lines of a key-sorted attribute list that
contains exactly the entries of the attribute map after overwriting `size`
and `oid` from the fields; every `oid` entry equals `sha256:<hexdigest>`
and every `size` entry the decimal size text, regardless of what the map
held for those keys. -/
theorem C2_canonical_serialization (p : Pointer) (s : SHA256)
    (hoid : p.oid = some s) (hascii : ∀ c ∈ s.hexsha, c < 128) :
    ∃ items,
      Pointer.toBytes p =
        .ok (lineOf (Key.VERSION, Version.V1.value) ++ encodeLines items) ∧
      List.Sorted (fun a b : Bytes × Bytes => bytesLt b.1 a.1 = false) items ∧
      (∀ kv, kv ∈ items ↔ kv ∈ dictSet (dictSet p._attrs Key.SIZE (natToBytes p.size))
        Key.OID (SHA256.digest_name ++ COLON :: s.hexsha)) ∧
      (∀ w, (Key.OID, w) ∈ items → w = SHA256.digest_name ++ COLON :: s.hexsha) ∧
      (∀ w, (Key.SIZE, w) ∈ items → w = natToBytes p.size) ∧
      (Key.OID, SHA256.digest_name ++ COLON :: s.hexsha) ∈ items ∧
      (Key.SIZE, natToBytes p.size) ∈ items := by
  have hascii2 : s.hexsha.any (fun c => 128 ≤ c) = false := by
    rw [List.any_eq_false]
    intro c hc
    simp only [decide_eq_true_eq]
    have := hascii c hc
    omega
  refine ⟨canonItems p s, ?_, ?_, ?_, ?_, ?_, ?_, ?_⟩
  · rw [toBytes_ok_shape hoid hascii2]
    rfl
  · have hs := List.sorted_insertionSort pairLe (dictSet (dictSet p._attrs Key.SIZE
      (natToBytes p.size)) Key.OID (SHA256.digest_name ++ COLON :: s.hexsha))
    exact hs.imp (fun h => pairLe_key_le h)
  · intro kv
    exact (List.perm_insertionSort pairLe _).mem_iff
  · intro w hw
    exact mem_dictSet_key_val ((List.perm_insertionSort pairLe _).mem_iff.mp hw)
  · intro w hw
    have h1 := (List.perm_insertionSort pairLe _).mem_iff.mp hw
    rcases mem_dictSet_elim h1 with h2 | ⟨h2, _⟩
    · have hcc : Key.SIZE = Key.OID := congrArg Prod.fst h2
      exact absurd hcc (by decide)
    · exact mem_dictSet_key_val h2
  · rw [show canonItems p s = List.insertionSort pairLe (dictSet (dictSet p._attrs
      Key.SIZE (natToBytes p.size)) Key.OID (SHA256.digest_name ++ COLON :: s.hexsha))
      from rfl]
    rw [(List.perm_insertionSort pairLe _).mem_iff]
    exact mem_dictSet_self _ _ _
  · rw [show canonItems p s = List.insertionSort pairLe (dictSet (dictSet p._attrs
      Key.SIZE (natToBytes p.size)) Key.OID (SHA256.digest_name ++ COLON :: s.hexsha))
      from rfl]
    rw [(List.perm_insertionSort pairLe _).mem_iff]
    exact mem_dictSet_of_ne (mem_dictSet_self _ _ _) (by decide)

/-- Witness for C2 at the doctest record. -/
theorem C2_canonical_serialization_witness :
    ∃ items,
      Pointer.toBytes exP =
        .ok (lineOf (Key.VERSION, Version.V1.value) ++ encodeLines items) ∧
      List.Sorted (fun a b : Bytes × Bytes => bytesLt b.1 a.1 = false) items ∧
      (∀ kv, kv ∈ items ↔ kv ∈ dictSet (dictSet exP._attrs Key.SIZE
        (natToBytes exP.size)) Key.OID
        (SHA256.digest_name ++ COLON :: SHA256.hexsha ⟨exHex⟩)) ∧
      (∀ w, (Key.OID, w) ∈ items →
        w = SHA256.digest_name ++ COLON :: SHA256.hexsha ⟨exHex⟩) ∧
      (∀ w, (Key.SIZE, w) ∈ items → w = natToBytes exP.size) ∧
      (Key.OID, SHA256.digest_name ++ COLON :: SHA256.hexsha ⟨exHex⟩) ∈ items ∧
      (Key.SIZE, natToBytes exP.size) ∈ items :=
  C2_canonical_serialization exP ⟨exHex⟩ rfl (by decide)

/-- C3: parsing an input whose version line carries a legacy schema URI and
serializing the result yields an output whose version line carries the
primary URI, never the legacy one. -/
theorem C3_version_normalization (u rest : Bytes) (p : Pointer)
    (hu : u = Version.PRE.value ∨ u = Version.ALPHA.value)
    (hparse : Pointer.from_bytes (Key.VERSION ++ SP :: u ++ NL :: rest) = .ok p) :
    ∃ tail, Pointer.toBytes p = .ok (Key.VERSION ++ SP :: Version.V1.value ++ NL :: tail) ∧
      Version.V1.value ≠ u := by
  have hbne : Key.VERSION ++ SP :: u ++ NL :: rest ≠ [] := by
    intro he
    have hlen0 : (Key.VERSION ++ SP :: u ++ NL :: rest).length = 0 := by
      rw [he]
      rfl
    simp only [List.length_append, List.length_cons] at hlen0
    omega
  obtain ⟨⟨hnd, hgood⟩, hoidfacts, hnone, _⟩ := from_file_ok_inv hparse
  cases hpo : p.oid with
  | none => exact absurd (hnone hpo) hbne
  | some s =>
    obtain ⟨hl64, hhx⟩ := hoidfacts s hpo
    refine ⟨encodeLines (canonItems p s), ?_, ?_⟩
    · rw [toBytes_ok_shape hpo (hex_ascii hhx)]
      congr 1
    · rcases hu with h | h <;> rw [h] <;> decide

/-- The attribute block of the legacy-order doctest input. -/
def c3Rest : Bytes :=
  strBytes ("size 12345\noid sha256:4d7a214614ab2935c943f9e0ff69d22eadbb8f32b1258daaa5e2ca24d17e2393\n")

/-- The record parsed from the legacy-order doctest input. -/
def c3P : Pointer :=
  { _attrs := [(Key.SIZE, strBytes ("12345")),
               (Key.OID, SHA256.digest_name ++ COLON :: exHex)],
    oid := some ⟨exHex⟩, size := 12345 }

/-- Witness for C3 at the hawser-URI doctest input. -/
theorem C3_version_normalization_witness :
    ∃ tail, Pointer.toBytes c3P =
        .ok (Key.VERSION ++ SP :: Version.V1.value ++ NL :: tail) ∧
      Version.V1.value ≠ Version.PRE.value :=
  C3_version_normalization Version.PRE.value c3Rest c3P (.inl rfl) (by decide)

/-- C6: a first line that ends with the terminator, contains a space, has
key `version` and a value that is none of the three recognized URIs fails
with `VersionUnsupported`, not with the generic format error. -/
theorem C6_unsupported_version (v rest : Bytes) (hlen : v.length ≤ 247)
    (hNL : NL ∉ v) (hver : Version.verify v = false) :
    Pointer.from_bytes (Key.VERSION ++ SP :: v ++ NL :: rest) =
        .error .versionUnsupported ∧
      PyError.versionUnsupported ≠ PyError.pointerFormat := by
  refine ⟨?_, by decide⟩
  have hm : NL ∉ Key.VERSION ++ SP :: v := by
    intro hmem
    rcases List.mem_append.mp hmem with h1 | h1
    · revert h1
      decide
    · rcases List.mem_cons.mp h1 with h2 | h2
      · revert h2
        decide
      · exact hNL h2
  have hlength : (Key.VERSION ++ SP :: v).length < 256 := by
    simp only [List.length_append, List.length_cons]
    have h7 : Key.VERSION.length = 7 := by decide
    omega
  have hrl : readline 256 (Key.VERSION ++ SP :: v ++ NL :: rest) =
      ((Key.VERSION ++ SP :: v) ++ [NL], rest) :=
    readline_of_line 256 (Key.VERSION ++ SP :: v) rest hm hlength
  have hvv : Pointer._verify_version ((Key.VERSION ++ SP :: v) ++ [NL]) = .vFalse := by
    unfold Pointer._verify_version
    rw [if_pos ?_]
    · rw [rstripNL_append_NL, rstripNL_of_no_NL hm]
      simp only [split1_append SP Key.VERSION v (by decide), if_true, eq_self_iff_true,
        ite_true, hver, Bool.false_eq_true, ite_false]
    · rw [Bool.and_eq_true]
      refine ⟨endsWithNL_concat _, ?_⟩
      rw [containsSP_iff]
      exact List.mem_append_left _ (List.mem_append_right _ (List.mem_cons_self _ _))
  unfold Pointer.from_bytes Pointer.from_file
  simp only [hrl]
  rw [if_neg (by simp), if_pos hvv]

/-- Witness for C6 at the doctest input `version 1`. -/
theorem C6_unsupported_version_witness :
    Pointer.from_bytes (Key.VERSION ++ SP :: [49] ++ NL :: []) =
        .error .versionUnsupported ∧
      PyError.versionUnsupported ≠ PyError.pointerFormat :=
  C6_unsupported_version [49] [] (by decide) (by decide) (by decide)

/-- C7: an otherwise well-formed input whose oid value has an algorithm tag
other than sha256 before the first colon fails with the pointer format
error, a different kind than VersionUnsupported. -/
theorem C7_unsupported_oid_algorithm (b line rest : Bytes) (attrs : Dict)
    (oidValue oidType oidHash : Bytes)
    (hrl : readline 256 b = (line, rest)) (hline : line ≠ [])
    (hvf : Pointer._verify_version line ≠ .vFalse)
    (hpl : parseAttrLines (splitLines rest) [] = .ok attrs)
    (hoid : dictGet? attrs Key.OID = some oidValue)
    (hsp : split1 COLON oidValue = (oidType, some oidHash))
    (hsupp : supported_digests.contains oidType = false) :
    Pointer.from_bytes b = .error .pointerFormat ∧
      PyError.pointerFormat ≠ PyError.versionUnsupported := by
  refine ⟨?_, by decide⟩
  unfold Pointer.from_bytes
  rw [from_file_step hrl hline hvf hpl]
  simp only [hoid, hsp, hsupp]
  rfl

/-- The md5-tagged input for the C7 witness. -/
def c7In : Bytes :=
  strBytes ("version https://git-lfs.github.com/spec/v1\noid md5:4d7a214614ab2935c943f9e0ff69d22eadbb8f32b1258daaa5e2ca24d17e2393\nsize 1\n")

def c7Line : Bytes := strBytes ("version https://git-lfs.github.com/spec/v1\n")

def c7Rest : Bytes :=
  strBytes ("oid md5:4d7a214614ab2935c943f9e0ff69d22eadbb8f32b1258daaa5e2ca24d17e2393\nsize 1\n")

def c7OidValue : Bytes := strBytes ("md5:") ++ exHex

def c7Attrs : Dict := [(Key.OID, c7OidValue), (Key.SIZE, strBytes ("1"))]

/-- Witness for C7 at the md5-tagged input. -/
theorem C7_unsupported_oid_algorithm_witness :
    Pointer.from_bytes c7In = .error .pointerFormat ∧
      PyError.pointerFormat ≠ PyError.versionUnsupported :=
  C7_unsupported_oid_algorithm c7In c7Line c7Rest c7Attrs c7OidValue
    (strBytes ("md5")) exHex (by decide) (by decide) (by decide) (by decide)
    (by decide) (by decide) (by decide)

/-- C8: digest construction fails with MalformedDigest (the ValueError
family raised inside `SHA256.__init__`, including the binascii error, a
ValueError subclass) whenever the input length differs from 64 or a byte is
not a hex digit; on 64 valid hex digits it succeeds, `hexdigest` returns
the text as given and `digest` its 32-byte raw decoding. -/
theorem C8_digest_construction :
    (∀ h : Bytes, h.length ≠ 64 → SHA256.mk? h = .error .malformedDigest) ∧
    (∀ h : Bytes, h.all isHexDigit = false → SHA256.mk? h = .error .malformedDigest) ∧
    (∀ h : Bytes, h.length = 64 → h.all isHexDigit = true →
      SHA256.mk? h = .ok ⟨h⟩ ∧ SHA256.hexdigest ⟨h⟩ = h ∧
        SHA256.digest ⟨h⟩ = unhexlify h ∧ (SHA256.digest ⟨h⟩).length = 32) := by
  refine ⟨?_, ?_, ?_⟩
  · intro h hl
    unfold SHA256.mk?
    rw [if_pos hl]
  · intro h ha
    unfold SHA256.mk?
    split
    · rfl
    · rw [if_pos (by simp [ha])]
  · intro h hl ha
    refine ⟨?_, rfl, rfl, ?_⟩
    · unfold SHA256.mk?
      rw [if_neg (by omega), if_neg (by simp [ha])]
    · unfold SHA256.digest
      rw [unhexlify_length]
      show h.length / 2 = 32
      omega

/-- Witness for C8: a short input, a non-hex input, and the doctest digest. -/
theorem C8_digest_construction_witness :
    SHA256.mk? (strBytes ("4d7a")) = .error .malformedDigest ∧
    SHA256.mk? (strBytes ("zz")) = .error .malformedDigest ∧
    (SHA256.mk? exHex = .ok ⟨exHex⟩ ∧ SHA256.hexdigest ⟨exHex⟩ = exHex ∧
      SHA256.digest ⟨exHex⟩ = unhexlify exHex ∧ (SHA256.digest ⟨exHex⟩).length = 32) :=
  ⟨C8_digest_construction.1 (strBytes ("4d7a")) (by decide),
   C8_digest_construction.2.1 (strBytes ("zz")) (by decide),
   C8_digest_construction.2.2 exHex (by decide) (by decide)⟩

/-- C10: an attribute line with key `version` after the version line is
stored in the attribute map like any other attribute (last write wins), and
serialization emits it again among the sorted attributes, so the output
holds the canonical leading version line plus a second line keyed
`version`. -/
theorem C10_duplicate_version_attribute (pres : List (Bytes × Bytes)) (w : Bytes)
    (p : Pointer)
    (hgood : ∀ kv ∈ pres, NL ∉ kv.1 ∧ NL ∉ kv.2) (hw : NL ∉ w)
    (hparse : Pointer.from_bytes (canonBytes (pres ++ [(Key.VERSION, w)])) = .ok p) :
    dictGet? p._attrs Key.VERSION = some w ∧
    ∃ s items, p.oid = some s ∧
      Pointer.toBytes p = .ok (lineOf (Key.VERSION, Version.V1.value) ++ encodeLines items) ∧
      (Key.VERSION, w) ∈ items := by
  have hrl := readline_canonBytes (pres ++ [(Key.VERSION, w)])
  have hline : ((Key.VERSION ++ SP :: Version.V1.value) ++ [NL] : Bytes) ≠ [] := by simp
  obtain ⟨⟨hnd, hgoodA⟩, hoidfacts, hnone, hattrs⟩ := from_file_ok_inv hparse
  have hpl := hattrs _ _ hrl hline
  have hsl : splitLines (encodeLines (pres ++ [(Key.VERSION, w)])) =
      (pres ++ [(Key.VERSION, w)]).map lineOf := by
    apply splitLines_encodeLines
    intro kv hkv
    rcases List.mem_append.mp hkv with h1 | h1
    · exact hgood kv h1
    · rcases List.mem_cons.mp h1 with h2 | h2
      · rw [h2]
        refine ⟨?_, ?_⟩
        · show NL ∉ Key.VERSION
          decide
        · exact hw
      · simp at h2
  rw [hsl, List.map_append] at hpl
  have hver : dictGet? p._attrs Key.VERSION = some w :=
    parseAttrLines_last (pres.map lineOf) [] (by decide) (by decide) hw hpl
  refine ⟨hver, ?_⟩
  have hbne : canonBytes (pres ++ [(Key.VERSION, w)]) ≠ [] := by
    intro he
    rw [he] at hrl
    simp [readline] at hrl
  cases hpo : p.oid with
  | none => exact absurd (hnone hpo) hbne
  | some s =>
    obtain ⟨hl64, hhx⟩ := hoidfacts s hpo
    refine ⟨s, canonItems p s, rfl, ?_, ?_⟩
    · rw [toBytes_ok_shape hpo (hex_ascii hhx)]
      rfl
    · have hmem : (Key.VERSION, w) ∈ p._attrs := dictGet?_mem hver
      unfold canonItems
      rw [(List.perm_insertionSort pairLe _).mem_iff]
      exact mem_dictSet_of_ne (mem_dictSet_of_ne hmem (by decide)) (by decide)

/-- The C10 witness input attributes: oid and size, then a duplicate
version attribute line whose value is the word legacy. -/
def c10Pres : List (Bytes × Bytes) :=
  [(Key.OID, SHA256.digest_name ++ COLON :: exHex), (Key.SIZE, strBytes ("7"))]

def c10W : Bytes := strBytes ("legacy")

/-- The record parsed from the C10 witness input. -/
def c10P : Pointer :=
  { _attrs := [(Key.OID, SHA256.digest_name ++ COLON :: exHex),
               (Key.SIZE, strBytes ("7")), (Key.VERSION, c10W)],
    oid := some ⟨exHex⟩, size := 7 }

/-- Witness for C10 at a pointer file with a duplicate version attribute. -/
theorem C10_duplicate_version_attribute_witness :
    dictGet? c10P._attrs Key.VERSION = some c10W ∧
    ∃ s items, c10P.oid = some s ∧
      Pointer.toBytes c10P =
        .ok (lineOf (Key.VERSION, Version.V1.value) ++ encodeLines items) ∧
      (Key.VERSION, c10W) ∈ items :=
  C10_duplicate_version_attribute c10Pres c10W c10P (by decide) (by decide) (by decide)

end GitLfs
